import Mathlib

/-!
Shallow embedding of the external-dns Shaman provider and the file source
of this repository, together with proofs about them.

Modelling conventions:
* Go multiple returns `(value, error)` become pairs `α × Option String`
  (an error is `some msg`); callers inspect the error component exactly
  where the Go code checks `err != nil`.
* The remote Shaman client is a record of response-valued fields, one per
  method of the `shamanDNS` interface that the provider code reaches.
* Remote calls issued by the provider are collected in a trace list, so
  that statements about which calls were or were not made are expressible.
* Go `uint8` conversions are modelled as `% 256` (`uint8OfInt` for
  conversions from signed values, taking the low 8 bits as Go does).
* Go map iteration order is unspecified; it is modelled deterministically
  by association lists in key insertion order.
-/

/-! ## Data model of the Shaman client types -/

/-- DNS record as sent to the Shaman service (Go struct `shaman.DNSRecord`).
The Go field `Type` is rendered `rtype` because `Type` is a Lean keyword. -/
structure DNSRecord where
  TTL : Nat
  Class : String
  rtype : String
  Address : String
deriving DecidableEq

/-- DNS record as returned by the Shaman service (Go `shaman.DNSRecordResponse`). -/
structure DNSRecordResponse where
  TTL : Nat
  Class : String
  rtype : String
  Address : String
deriving DecidableEq

/-- One domain with its records (Go struct `shaman.Domain`). -/
structure ShamanDomain where
  Domain : String
  Records : List DNSRecord
deriving DecidableEq

/-- Response of a per-domain record fetch (Go `shaman.DomainResponse`). -/
structure DomainResponse where
  Domain : String
  Records : List DNSRecordResponse
deriving DecidableEq

/-- Response of a domain deletion (Go `shaman.MsgResponse`); contents unused. -/
structure MsgResponse where
  msg : String := ""
deriving DecidableEq

/-- Go `shaman.DomainsResponse` is a list of domain names. -/
abbrev DomainsResponse := List String

/-! ## Data model of the host framework types (external to the repository,
modelled as plain value types, following the specification data model) -/

/-- Host framework endpoint (external type `endpoint.Endpoint`); the TTL is the
Go `endpoint.TTL` (an `int64`), so it is modelled as `Int`. -/
structure Endpoint where
  DNSName : String
  RecordType : String
  Targets : List String
  RecordTTL : Int := 0
deriving DecidableEq

/-- Go `endpoint.TTL.IsConfigured()` returns `ttl > 0`. -/
def ttlIsConfigured (ttl : Int) : Bool := 0 < ttl

/-- External constructor `endpoint.NewEndpointWithTTL`, modelled as plain
field assembly per the specification data model. -/
def NewEndpointWithTTL (dnsName recordType : String) (ttl : Int)
    (targets : List String) : Endpoint :=
  { DNSName := dnsName, RecordType := recordType, Targets := targets, RecordTTL := ttl }

/-- External constructor `endpoint.NewEndpoint` (TTL left at zero / unset). -/
def NewEndpoint (dnsName recordType : String) (targets : List String) : Endpoint :=
  NewEndpointWithTTL dnsName recordType 0 targets

/-- External constant `endpoint.RecordTypeA`. -/
def RecordTypeA : String := "A"

/-- External helper `provider.SupportedRecordType` (record types the host
framework supports). -/
def SupportedRecordType (recordType : String) : Bool :=
  recordType = "A" || recordType = "CNAME" || recordType = "SRV" || recordType = "TXT"

/-- Host framework change set handed to `ApplyChanges` (external type
`plan.Changes`). -/
structure PlanChanges where
  Create : List Endpoint := []
  UpdateOld : List Endpoint := []
  UpdateNew : List Endpoint := []
  Delete : List Endpoint := []
deriving DecidableEq

/-- Go conversion of a nonnegative value to `uint8`: the low 8 bits. -/
def uint8OfNat (n : Nat) : Nat := n % 256

/-- Go conversion `uint8(x)` of a signed integer: the low 8 bits. -/
def uint8OfInt (x : Int) : Nat := (x % 256).toNat

/-! ## Remote calls and the client interface -/

/-- One remote call issued by the provider, as recorded in a trace. -/
inductive RemoteCall where
  | getDomains
  | getRecords (domain : String)
  | replaceDomainRecords (domain : String) (records : List DNSRecord)
  | deleteDomain (domain : String)
deriving DecidableEq

/-- True for the mutating remote calls (replace records, delete domain). -/
def RemoteCall.isMutating : RemoteCall → Bool
  | .replaceDomainRecords _ _ => true
  | .deleteDomain _ => true
  | _ => false

/-- Shaman client (the part of the Go `shamanDNS` interface the provider
reaches), modelled as a record of responses per call. -/
structure ShamanClient where
  getDomains : DomainsResponse × Option String
  getRecords : String → DomainResponse × Option String
  replaceDomainRecords : String → List DNSRecord → DomainResponse × Option String
  deleteDomain : String → MsgResponse × Option String

/-- The provider (Go struct `ShamanProvider`); `domainFilter.Match` is
modelled as a boolean predicate on domain names. -/
structure ShamanProvider where
  Client : ShamanClient
  domainFilter : String → Bool
  DryRun : Bool

/-! ## Shaman provider constants -/

def defaultShamanRecordTTL : Int := 60

def defaultShamanRecordClass : String := "IN"

def shamanCreate : String := "CREATE"

def shamanDelete : String := "DELETE"

def shamanUpdate : String := "UPDATE"

/-- Go struct `shamanChangeSet`. -/
structure shamanChangeSet where
  Action : String := ""
  ResourceRecordSet : ShamanDomain := { Domain := "", Records := [] }
deriving DecidableEq

/-- Go struct `shamanChange`. -/
structure shamanChange where
  Domain : String
  Changes : List shamanChangeSet
deriving DecidableEq

/-! ## File source (src/source/sourcefile.go) -/

/-- One parsed JSON record of the input file (Go struct `sourceEndpoint`). -/
structure sourceEndpoint where
  DnsName : String
  Addresses : List String
deriving DecidableEq

/-- The file source (Go struct `fileSource`). -/
structure fileSource where
  dnsNameBase : String
  fileName : String
deriving DecidableEq

/-- Outcome of `os.Stat` on the configured path, as distinguished by
`NewFileSource`: a successful stat (with the directory flag), a
does-not-exist error, or any other stat error. -/
inductive StatOutcome where
  | ok (isDir : Bool)
  | notExist
  | otherErr (msg : String)
deriving DecidableEq

/-- Go `NewFileSource`: checks the configured path and returns the source or
an error. The first component models the returned `Source` pointer, the
second the returned `error`. In the Go code the directory branch executes
`return nil, err` inside the `err == nil` arm, so it returns a nil error. -/
def NewFileSource (stat : StatOutcome) (fqdnTemplate sourceFileName : String) :
    Option fileSource × Option String :=
  match stat with
  | .ok true => (none, none)
  | .ok false => (some { dnsNameBase := fqdnTemplate, fileName := sourceFileName }, none)
  | .notExist => (none, some "file does not exist")
  | .otherErr msg => (none, some msg)

/-- Loop body of Go `generateEndpoints` over the parsed records: an empty
name or empty address list yields the zero-valued placeholder endpoint,
otherwise one endpoint with the concatenated name, record type A and the
addresses as targets. -/
def generateEndpoints (fs : fileSource) : List sourceEndpoint → List Endpoint
  | [] => []
  | v :: rest =>
    (if v.DnsName = "" || v.Addresses.length = 0 then
      ({ DNSName := "", RecordType := "", Targets := [], RecordTTL := 0 } : Endpoint)
    else
      NewEndpoint (v.DnsName ++ "." ++ fs.dnsNameBase) RecordTypeA v.Addresses)
    :: generateEndpoints fs rest

/-! ## Shaman provider operations (src/unnamed/part_000) -/

/-- Go `sameShamanDNSRecord`: equality on class, type and address (TTL ignored). -/
def sameShamanDNSRecord (left right : DNSRecord) : Bool :=
  left.Class = right.Class && left.rtype = right.rtype && left.Address = right.Address

/-- Loop body of Go `Domains`: appends each fetched domain that matches the
configured filter, preserving order. -/
def domainsLoop (matchF : String → Bool) (res : List String) : List String :=
  res.foldl (fun result d => if matchF d then result ++ [d] else result) []

/-- Go `ShamanProvider.Domains`: fetches all remote domains, propagating a
fetch error with an empty list, and filters them. The second component is
the trace of remote calls issued. -/
def Domains (p : ShamanProvider) : (DomainsResponse × Option String) × List RemoteCall :=
  match p.Client.getDomains with
  | (_, some e) => (([], some e), [RemoteCall.getDomains])
  | (res, none) => ((domainsLoop p.domainFilter res, none), [RemoteCall.getDomains])

/-- Bucket insertion for the Go map grouping in `shamanGroupByNameAndType`:
append to the bucket of the given key, creating the bucket (at the end, i.e.
in insertion order) when absent. -/
def bucketInsert {α : Type} (key : α → String) (acc : List (String × List α)) (x : α) :
    List (String × List α) :=
  match acc with
  | [] => [(key x, [x])]
  | (k, v) :: rest =>
    if k = key x then (k, v ++ [x]) :: rest else (k, v) :: bucketInsert key rest x

/-- Grouping loop of Go `shamanGroupByNameAndType`: one pass over the fetched
records, skipping unsupported record types and bucketing the rest by the
string key domain-name-plus-record-type. -/
def shamanGroups (domainRecords : DomainResponse) : List (String × List DNSRecordResponse) :=
  domainRecords.Records.foldl
    (fun groups r =>
      if !SupportedRecordType r.rtype then groups
      else bucketInsert (fun rec => domainRecords.Domain ++ rec.rtype) groups r)
    []

/-- Endpoint built from one bucket in Go `shamanGroupByNameAndType`: the
domain name, the type and uint8-cast TTL of the first record of the bucket,
and all bucket addresses as targets. Buckets are never empty; the empty case
is unreachable (Go indexes `records[0]`). -/
def groupToEndpoint (domain : String) (records : List DNSRecordResponse) : Endpoint :=
  match records with
  | [] => { DNSName := domain, RecordType := "", Targets := [], RecordTTL := 0 }
  | r0 :: _ =>
    NewEndpointWithTTL domain r0.rtype (Int.ofNat (uint8OfNat r0.TTL))
      (records.map (fun record => record.Address))

/-- Go `shamanGroupByNameAndType`. -/
def shamanGroupByNameAndType (domainRecords : DomainResponse) : List Endpoint :=
  (shamanGroups domainRecords).map (fun g => groupToEndpoint domainRecords.Domain g.2)

/-- Per-domain loop of Go `Records`: fetch the records of every domain,
aborting with the error (and discarding all endpoints gathered so far, the
Go code returns `nil, err`) on the first failing fetch. -/
def recordsLoop (client : ShamanClient) :
    List String → (List Endpoint × Option String) × List RemoteCall
  | [] => (([], none), [])
  | d :: rest =>
    match client.getRecords d with
    | (_, some e) => (([], some e), [RemoteCall.getRecords d])
    | (records, none) =>
      match recordsLoop client rest with
      | ((_, some e), tr) => (([], some e), RemoteCall.getRecords d :: tr)
      | ((eps, none), tr) =>
        ((shamanGroupByNameAndType records ++ eps, none), RemoteCall.getRecords d :: tr)

/-- Go `ShamanProvider.Records`. -/
def Records (p : ShamanProvider) : (List Endpoint × Option String) × List RemoteCall :=
  match Domains p with
  | ((_, some e), tr) => (([], some e), tr)
  | ((domains, none), tr) =>
    match recordsLoop p.Client domains with
    | ((_, some e), tr2) => (([], some e), tr ++ tr2)
    | ((endpoints, none), tr2) => ((endpoints, none), tr ++ tr2)

/-! ## Change conversion (Go `newShamanChanges`) -/

/-- Per-domain action buckets: the three record lists of Go
`groups[domain]`, a map from the action constants to record lists. -/
structure ActionGroups where
  create : List DNSRecord := []
  update : List DNSRecord := []
  delete : List DNSRecord := []
deriving DecidableEq

/-- Append records to the bucket of one action. -/
def ActionGroups.add (g : ActionGroups) (action : String) (recs : List DNSRecord) :
    ActionGroups :=
  if action = shamanCreate then { g with create := g.create ++ recs }
  else if action = shamanUpdate then { g with update := g.update ++ recs }
  else if action = shamanDelete then { g with delete := g.delete ++ recs }
  else g

/-- Upsert into the per-domain groups map (association list in insertion
order): append to the action bucket of the domain, creating the three empty
buckets first when the domain is new. -/
def groupsUpsert (groups : List (String × ActionGroups)) (d action : String)
    (recs : List DNSRecord) : List (String × ActionGroups) :=
  match groups with
  | [] => [(d, ActionGroups.add {} action recs)]
  | (k, v) :: rest =>
    if k = d then (k, v.add action recs) :: rest
    else (k, v) :: groupsUpsert rest d action recs

/-- The TTL chosen for one endpoint in Go `newShamanChanges`: the default 60
unless the endpoint TTL is configured. -/
def changeTTL (e : Endpoint) : Int :=
  if ttlIsConfigured e.RecordTTL then e.RecordTTL else defaultShamanRecordTTL

/-- The `resourceRecordSet` built for one endpoint in Go `newShamanChanges`:
one record per target, with the uint8-cast chosen TTL and the fixed class. -/
def endpointRecords (e : Endpoint) : List DNSRecord :=
  e.Targets.map (fun t =>
    { TTL := uint8OfInt (changeTTL e), rtype := e.RecordType,
      Address := t, Class := defaultShamanRecordClass })

/-- Endpoint loop of Go `newShamanChanges` for one action list. -/
def insertEndpoints (action : String) (groups : List (String × ActionGroups)) :
    List Endpoint → List (String × ActionGroups)
  | [] => groups
  | e :: rest => insertEndpoints action (groupsUpsert groups e.DNSName action (endpointRecords e)) rest

/-- The groups map built by Go `newShamanChanges`; the `allendpoints` map is
iterated in the order CREATE, UPDATE, DELETE of its literal. -/
def buildGroups (endpointsCreate endpointsUpdate endpointsDelete : List Endpoint) :
    List (String × ActionGroups) :=
  insertEndpoints shamanDelete
    (insertEndpoints shamanUpdate
      (insertEndpoints shamanCreate [] endpointsCreate) endpointsUpdate) endpointsDelete

/-- Output loop of Go `newShamanChanges`. The variable `changes` is declared
outside the domain loop and accumulates the changesets of every domain
visited so far, and each `shamanChange` receives a copy of the whole
accumulated list; this cross-domain accumulation is preserved faithfully. -/
def changesStep (acc : List shamanChangeSet × List shamanChange) (g : String × ActionGroups) :
    List shamanChangeSet × List shamanChange :=
  let changes := acc.1 ++
    [{ Action := shamanCreate, ResourceRecordSet := { Domain := g.1, Records := g.2.create } },
     { Action := shamanUpdate, ResourceRecordSet := { Domain := g.1, Records := g.2.update } },
     { Action := shamanDelete, ResourceRecordSet := { Domain := g.1, Records := g.2.delete } }]
  (changes, acc.2 ++ [{ Domain := g.1, Changes := changes }])

def buildChangesResponse (groups : List (String × ActionGroups)) : List shamanChange :=
  (groups.foldl changesStep ([], [])).2

/-- Go `newShamanChanges`. -/
def newShamanChanges (endpointsCreate endpointsUpdate endpointsDelete : List Endpoint) :
    List shamanChange :=
  buildChangesResponse (buildGroups endpointsCreate endpointsUpdate endpointsDelete)

/-! ## submitChanges and ApplyChanges -/

/-- First changeset with the given action in Go `submitChanges`, or the
zero-valued changeset when none matches. -/
def firstWithAction (changesets : List shamanChangeSet) (action : String) : shamanChangeSet :=
  match changesets.find? (fun cs => cs.Action = action) with
  | some cs => cs
  | none => {}

/-- Create phase of the planning loop: append each record to create unless an
equal record (class, type, address) is already planned. -/
def applyCreates (planned creates : List DNSRecord) : List DNSRecord :=
  creates.foldl
    (fun prs ccs => if prs.any (fun pr => sameShamanDNSRecord pr ccs) then prs else prs ++ [ccs])
    planned

/-- Update phase of the planning loop: overwrite every planned record that
matches (class, type, address) with the update record. -/
def applyUpdates (planned updates : List DNSRecord) : List DNSRecord :=
  updates.foldl
    (fun prs ccs => prs.map (fun pr => if sameShamanDNSRecord pr ccs then ccs else pr))
    planned

/-- Index of the last planned record matching the given record, or -1, as
computed by the Go delete loop (the loop keeps overwriting `idx`). -/
def lastMatchIdx (planned : List DNSRecord) (ccs : DNSRecord) : Int :=
  (planned.foldl
    (fun (st : Int × Int) pr =>
      (if sameShamanDNSRecord pr ccs then st.2 else st.1, st.2 + 1))
    (-1, 0)).1

/-- Delete phase of the planning loop: splice out the last matching planned
record, when one exists. -/
def applyDeletes (planned deletes : List DNSRecord) : List DNSRecord :=
  deletes.foldl
    (fun prs ccs =>
      let idx := lastMatchIdx prs ccs
      if idx = -1 then prs
      else prs.take idx.toNat ++ prs.drop (idx.toNat + 1))
    planned

/-- Plan computation for one domain in Go `submitChanges`: starting from the
fetched records (empty when the domain does not exist remotely), apply the
create, update and delete changesets of the domain in that order. -/
def planRecords (c : shamanChange) (initial : List DNSRecord) : List DNSRecord :=
  applyDeletes
    (applyUpdates
      (applyCreates initial (firstWithAction c.Changes shamanCreate).ResourceRecordSet.Records)
      (firstWithAction c.Changes shamanUpdate).ResourceRecordSet.Records)
    (firstWithAction c.Changes shamanDelete).ResourceRecordSet.Records

/-- Domain existence check and record fetch at the head of the planning loop
of Go `submitChanges`: when the domain of the change exists remotely, fetch
its records (the copy loop onto `plannedRecords`), otherwise start empty. -/
def fetchInitial (client : ShamanClient) (domains : List String) (c : shamanChange) :
    (List DNSRecord × Option String) × List RemoteCall :=
  if domains.contains c.Domain then
    match client.getRecords c.Domain with
    | (_, some e) => (([], some e), [RemoteCall.getRecords c.Domain])
    | (records, none) =>
      ((records.Records.map (fun r =>
          { TTL := r.TTL, Class := r.Class, rtype := r.rtype, Address := r.Address }),
        none), [RemoteCall.getRecords c.Domain])
  else (([], none), [])

/-- Planning loop of Go `submitChanges` over the changes: for each change,
fetch the current records when the domain exists (propagating a fetch
error), plan the record set, and append the planned domain. -/
def planLoop (client : ShamanClient) (domains : List String) :
    List shamanChange → (List ShamanDomain × Option String) × List RemoteCall
  | [] => (([], none), [])
  | c :: rest =>
    match fetchInitial client domains c with
    | ((_, some e), tr) => (([], some e), tr)
    | ((initial, none), tr) =>
      match planLoop client domains rest with
      | ((_, some e), tr2) => (([], some e), tr ++ tr2)
      | ((pds, none), tr2) =>
        (({ Domain := c.Domain, Records := planRecords c initial } :: pds, none), tr ++ tr2)

/-- Apply phase of Go `submitChanges`: one mutating call per planned domain,
replace-records when the planned record set is nonempty, delete-domain when
it is empty. Errors of these calls are only logged in the Go code, so they
influence neither the trace nor the result. -/
def applyPhase (plannedDomains : List ShamanDomain) : List RemoteCall :=
  plannedDomains.map (fun pd =>
    if pd.Records.length > 0 then RemoteCall.replaceDomainRecords pd.Domain pd.Records
    else RemoteCall.deleteDomain pd.Domain)

/-- Go `ShamanProvider.submitChanges`. -/
def submitChanges (p : ShamanProvider) (changes : List shamanChange) :
    Option String × List RemoteCall :=
  if changes.length = 0 then (none, [])
  else
    match Domains p with
    | ((_, some e), dtr) => (some e, dtr)
    | ((domains, none), dtr) =>
      match planLoop p.Client domains changes with
      | ((_, some e), tr) => (some e, dtr ++ tr)
      | ((plannedDomains, none), tr) =>
        if p.DryRun then (none, dtr ++ tr)
        else (none, dtr ++ tr ++ applyPhase plannedDomains)

/-- Go `ShamanProvider.ApplyChanges`. -/
def ApplyChanges (p : ShamanProvider) (changes : PlanChanges) :
    Option String × List RemoteCall :=
  submitChanges p (newShamanChanges changes.Create changes.UpdateNew changes.Delete)

/-! ## Basic lemmas -/

theorem domainsLoop_foldl (matchF : String → Bool) (l acc : List String) :
    l.foldl (fun result d => if matchF d then result ++ [d] else result) acc =
      acc ++ l.filter matchF := by
  induction l generalizing acc with
  | nil => simp
  | cons d rest ih =>
    by_cases h : matchF d <;> simp [h, ih, List.filter_cons]

theorem domainsLoop_eq_filter (matchF : String → Bool) (l : List String) :
    domainsLoop matchF l = l.filter matchF := by
  simpa using domainsLoop_foldl matchF l []

/-- C7. The claim states that a configured path which is a directory makes
`NewFileSource` return a non-nil error. The code instead returns a nil
source together with a nil error in the directory branch (the Go code
returns the `err` of the successful `os.Stat`, which is nil there), so the
directory case is reported as success with no source. -/
theorem newFileSource_dir_no_error_C7 :
    NewFileSource (StatOutcome.ok true) "example.com" "records.json" = (none, none) := rfl

/-- C6. With all three endpoint lists empty, `ApplyChanges` returns a nil
error and issues no remote call at all, for every provider. -/
theorem applyChanges_empty_C6 (p : ShamanProvider) :
    ApplyChanges p {} = (none, []) := rfl

/-- C4. `Domains` returns exactly the remote domains matching the configured
filter, in remote order (a sublist of the remote list); on a remote fetch
error it returns that error together with an empty domain list. Only the
domain-list call is issued in both cases. -/
theorem domains_filter_C4 (client : ShamanClient) (matchF : String → Bool) (dry : Bool) :
    (∀ ds, client.getDomains = (ds, none) →
        Domains ⟨client, matchF, dry⟩ = ((ds.filter matchF, none), [RemoteCall.getDomains]) ∧
        (ds.filter matchF).Sublist ds) ∧
    (∀ ds e, client.getDomains = (ds, some e) →
        Domains ⟨client, matchF, dry⟩ = (([], some e), [RemoteCall.getDomains])) := by
  constructor
  · intro ds h
    constructor
    · simp [Domains, h, domainsLoop_eq_filter]
    · exact List.filter_sublist ds
  · intro ds e h
    simp [Domains, h]

/-- Closed witness for the hypotheses of `domains_filter_C4`. -/
theorem domains_filter_C4_witness :
    Domains ⟨⟨(["a.org", "b.net", "c.org"], none),
              fun _ => ({ Domain := "", Records := [] }, none),
              fun _ _ => ({ Domain := "", Records := [] }, none),
              fun _ => ({}, none)⟩,
            fun d => d == "a.org" || d == "c.org", false⟩ =
      ((["a.org", "c.org"], none), [RemoteCall.getDomains]) := by
  have h := ((domains_filter_C4
      ⟨(["a.org", "b.net", "c.org"], none),
       fun _ => ({ Domain := "", Records := [] }, none),
       fun _ _ => ({ Domain := "", Records := [] }, none),
       fun _ => ({}, none)⟩
      (fun d => d == "a.org" || d == "c.org") false).1
      ["a.org", "b.net", "c.org"] rfl).1
  exact h.trans (by decide)

/-- C5. `generateEndpoints` yields one endpoint per parsed record, in order:
a record with nonempty name and nonempty address list becomes an endpoint
named by concatenation with the configured base, of record type A, with the
address list verbatim as targets; a record with empty name or empty address
list becomes the zero-valued placeholder endpoint rather than being dropped. -/
theorem generateEndpoints_spec_C5 (fs : fileSource) (f : List sourceEndpoint) :
    (generateEndpoints fs f).length = f.length ∧
    ∀ (i : Nat) (v : sourceEndpoint), f[i]? = some v →
      (generateEndpoints fs f)[i]? = some (
        if v.DnsName = "" ∨ v.Addresses = [] then
          { DNSName := "", RecordType := "", Targets := [], RecordTTL := 0 }
        else
          { DNSName := v.DnsName ++ "." ++ fs.dnsNameBase, RecordType := "A",
            Targets := v.Addresses, RecordTTL := 0 }) := by
  induction f with
  | nil =>
    refine ⟨rfl, ?_⟩
    intro i v h
    simp at h
  | cons v rest ih =>
    refine ⟨by simpa [generateEndpoints] using ih.1, ?_⟩
    intro i w h
    cases i with
    | zero =>
      simp only [List.getElem?_cons_zero, Option.some.injEq] at h
      subst h
      by_cases h1 : v.DnsName = ""
      · simp [generateEndpoints, h1]
      · by_cases h2 : v.Addresses = []
        · simp [generateEndpoints, h1, h2]
        · have hlen : v.Addresses.length ≠ 0 := by simpa using h2
          simp [generateEndpoints, h1, h2, hlen, NewEndpoint, NewEndpointWithTTL, RecordTypeA]
    | succ i =>
      simp only [List.getElem?_cons_succ] at h
      simpa [generateEndpoints] using ih.2 i w h

/-- Closed witness for the hypotheses of `generateEndpoints_spec_C5`. -/
theorem generateEndpoints_spec_C5_witness :
    (generateEndpoints ⟨"base.org", "f.json"⟩
        [⟨"kung", ["1.2.3.4"]⟩, ⟨"", ["5.6.7.8"]⟩]).length = 2 ∧
    (generateEndpoints ⟨"base.org", "f.json"⟩
        [⟨"kung", ["1.2.3.4"]⟩, ⟨"", ["5.6.7.8"]⟩])[0]? =
      some { DNSName := "kung.base.org", RecordType := "A",
             Targets := ["1.2.3.4"], RecordTTL := 0 } := by
  refine ⟨(generateEndpoints_spec_C5 _ _).1, ?_⟩
  have h := (generateEndpoints_spec_C5 ⟨"base.org", "f.json"⟩
      [⟨"kung", ["1.2.3.4"]⟩, ⟨"", ["5.6.7.8"]⟩]).2 0 ⟨"kung", ["1.2.3.4"]⟩ rfl
  simpa using h

/-! ## Claim C1: cross-domain leakage in newShamanChanges -/

/-- Create endpoint in domain a.example.com used to exhibit claim C1. -/
def epA : Endpoint :=
  { DNSName := "a.example.com", RecordType := "A", Targets := ["1.1.1.1"], RecordTTL := 0 }

/-- Create endpoint in domain b.example.com used to exhibit claim C1. -/
def epB : Endpoint :=
  { DNSName := "b.example.com", RecordType := "A", Targets := ["2.2.2.2"], RecordTTL := 0 }

/-- C1. The claim states that every per-domain structure holds exactly three
record lists containing only records derived from endpoints of that domain.
In the code the changeset accumulator is shared across the domain loop, so
the structure of the second domain also carries the three changesets of the
first domain: with two create endpoints in distinct domains, the structure
for b.example.com holds six changesets, and the first CREATE changeset found
in it (the one `submitChanges` consumes) carries the records of
a.example.com, a different domain. -/
theorem newShamanChanges_leaks_across_domains_C1 :
    (newShamanChanges [epA, epB] [] []).length = 2 ∧
    ((newShamanChanges [epA, epB] [] []).getD 1 { Domain := "", Changes := [] }).Domain =
      "b.example.com" ∧
    (((newShamanChanges [epA, epB] [] []).getD 1 { Domain := "", Changes := [] }).Changes).length = 6 ∧
    (firstWithAction
        ((newShamanChanges [epA, epB] [] []).getD 1 { Domain := "", Changes := [] }).Changes
        shamanCreate).ResourceRecordSet.Domain = "a.example.com" ∧
    (firstWithAction
        ((newShamanChanges [epA, epB] [] []).getD 1 { Domain := "", Changes := [] }).Changes
        shamanCreate).ResourceRecordSet.Records =
      [{ TTL := 60, Class := "IN", rtype := "A", Address := "1.1.1.1" }] := by
  decide

/-! ## Lemmas about the provider operations -/

theorem Domains_ok (client : ShamanClient) (matchF : String → Bool) (dry : Bool)
    (ds : List String) (h : client.getDomains = (ds, none)) :
    Domains ⟨client, matchF, dry⟩ = ((ds.filter matchF, none), [RemoteCall.getDomains]) := by
  simp [Domains, h, domainsLoop_eq_filter]

theorem Domains_err (client : ShamanClient) (matchF : String → Bool) (dry : Bool)
    (ds : List String) (e : String) (h : client.getDomains = (ds, some e)) :
    Domains ⟨client, matchF, dry⟩ = (([], some e), [RemoteCall.getDomains]) := by
  simp [Domains, h]

theorem fetchInitial_not_mutating (client : ShamanClient) (domains : List String)
    (c : shamanChange) :
    ∀ call ∈ (fetchInitial client domains c).2, call.isMutating = false := by
  intro call h
  unfold fetchInitial at h
  by_cases hc : domains.contains c.Domain
  · rw [if_pos hc] at h
    rcases hgr : client.getRecords c.Domain with ⟨resp, err⟩
    rw [hgr] at h
    cases err <;> simp_all [RemoteCall.isMutating]
  · rw [if_neg hc] at h
    simp at h

theorem fetchInitial_ok (client : ShamanClient) (domains : List String) (c : shamanChange)
    (hr : ∀ d, (client.getRecords d).2 = none) :
    (fetchInitial client domains c).1.2 = none := by
  unfold fetchInitial
  by_cases hc : domains.contains c.Domain
  · rw [if_pos hc]
    rcases hgr : client.getRecords c.Domain with ⟨resp, err⟩
    have h2 := hr c.Domain
    rw [hgr] at h2
    cases err with
    | none => rfl
    | some e => simp at h2
  · rw [if_neg hc]

theorem planLoop_not_mutating (client : ShamanClient) (domains : List String) :
    ∀ cs : List shamanChange, ∀ call ∈ (planLoop client domains cs).2,
      call.isMutating = false := by
  intro cs
  induction cs with
  | nil => intro call h; simp [planLoop] at h
  | cons c rest ih =>
    intro call h
    rw [planLoop] at h
    rcases hf : fetchInitial client domains c with ⟨⟨initial, ferr⟩, ftr⟩
    rw [hf] at h
    have hftr : ∀ x ∈ ftr, RemoteCall.isMutating x = false := by
      intro x hx
      exact fetchInitial_not_mutating client domains c x (by rw [hf]; exact hx)
    cases ferr with
    | some e => simp at h; exact hftr call h
    | none =>
      rcases hp : planLoop client domains rest with ⟨⟨pds, perr⟩, ptr⟩
      rw [hp] at h
      have hptr : ∀ x ∈ ptr, RemoteCall.isMutating x = false := by
        intro x hx
        exact ih x (by rw [hp]; exact hx)
      cases perr with
      | some e =>
        simp at h
        rcases h with h | h
        · exact hftr call h
        · exact hptr call h
      | none =>
        simp at h
        rcases h with h | h
        · exact hftr call h
        · exact hptr call h

theorem planLoop_ok (client : ShamanClient) (domains : List String)
    (hr : ∀ d, (client.getRecords d).2 = none) :
    ∀ cs : List shamanChange, ∃ pds tr, planLoop client domains cs = ((pds, none), tr) ∧
      pds.length = cs.length := by
  intro cs
  induction cs with
  | nil => exact ⟨[], [], rfl, rfl⟩
  | cons c rest ih =>
    rcases ih with ⟨pds, tr, hp, hlen⟩
    have hferr := fetchInitial_ok client domains c hr
    rcases hf : fetchInitial client domains c with ⟨⟨initial, ferr⟩, ftr⟩
    rw [hf] at hferr
    simp only at hferr
    subst hferr
    refine ⟨{ Domain := c.Domain, Records := planRecords c initial } :: pds, ftr ++ tr, ?_, ?_⟩
    · rw [planLoop, hf, hp]
    · simp [hlen]

theorem applyPhase_mutating (pds : List ShamanDomain) :
    ∀ call ∈ applyPhase pds, call.isMutating = true := by
  intro call h
  simp only [applyPhase, List.mem_map] at h
  rcases h with ⟨pd, hpd, rfl⟩
  by_cases hl : pd.Records.length > 0 <;> simp [hl, RemoteCall.isMutating]

theorem applyPhase_length (pds : List ShamanDomain) :
    (applyPhase pds).length = pds.length := by
  simp [applyPhase]

theorem submitChanges_shape_normal (client : ShamanClient) (matchF : String → Bool)
    (cs : List shamanChange) (ds : List String) (pds : List ShamanDomain)
    (tr : List RemoteCall) (hne : cs ≠ [])
    (hgd : client.getDomains = (ds, none))
    (hp : planLoop client (ds.filter matchF) cs = ((pds, none), tr)) :
    submitChanges ⟨client, matchF, false⟩ cs =
      (none, [RemoteCall.getDomains] ++ tr ++ applyPhase pds) := by
  have hlen : cs.length ≠ 0 := by simpa using hne
  rw [submitChanges, if_neg hlen, Domains_ok client matchF false ds hgd]
  simp only [hp]
  simp

theorem submitChanges_shape_dry (client : ShamanClient) (matchF : String → Bool)
    (cs : List shamanChange) (ds : List String) (pds : List ShamanDomain)
    (tr : List RemoteCall) (hne : cs ≠ [])
    (hgd : client.getDomains = (ds, none))
    (hp : planLoop client (ds.filter matchF) cs = ((pds, none), tr)) :
    submitChanges ⟨client, matchF, true⟩ cs = (none, [RemoteCall.getDomains] ++ tr) := by
  have hlen : cs.length ≠ 0 := by simpa using hne
  rw [submitChanges, if_neg hlen, Domains_ok client matchF true ds hgd]
  simp only [hp]
  simp

theorem submitChanges_gd_err (client : ShamanClient) (matchF : String → Bool) (dry : Bool)
    (cs : List shamanChange) (ds : List String) (e : String) (hne : cs ≠ [])
    (hgd : client.getDomains = (ds, some e)) :
    submitChanges ⟨client, matchF, dry⟩ cs = (some e, [RemoteCall.getDomains]) := by
  have hlen : cs.length ≠ 0 := by simpa using hne
  rw [submitChanges, if_neg hlen, Domains_err client matchF dry ds e hgd]

theorem submitChanges_plan_err (client : ShamanClient) (matchF : String → Bool) (dry : Bool)
    (cs : List shamanChange) (ds : List String) (junk : List ShamanDomain)
    (tr : List RemoteCall) (e : String) (hne : cs ≠ [])
    (hgd : client.getDomains = (ds, none))
    (hp : planLoop client (ds.filter matchF) cs = ((junk, some e), tr)) :
    submitChanges ⟨client, matchF, dry⟩ cs = (some e, [RemoteCall.getDomains] ++ tr) := by
  have hlen : cs.length ≠ 0 := by simpa using hne
  rw [submitChanges, if_neg hlen, Domains_ok client matchF dry ds hgd]
  simp only [hp]

/-! ## Claims C2 and C8 -/

/-- C2. Once planning completes without a remote fetch error (the domain
list fetch and every per-domain record fetch succeed), `ApplyChanges`
returns a nil error for every change set and every behaviour of the
mutating remote calls: per-record mismatches during planning and remote
errors of the replace-records or delete-domain calls are logged only, and
one mutating call is still issued per planned domain, so a failing
per-domain call does not prevent processing of the remaining domains. -/
theorem applyChanges_apply_phase_ok_C2 (client : ShamanClient) (matchF : String → Bool)
    (ch : PlanChanges)
    (hgd : (client.getDomains).2 = none)
    (hr : ∀ d, (client.getRecords d).2 = none) :
    (ApplyChanges ⟨client, matchF, false⟩ ch).1 = none ∧
    ((ApplyChanges ⟨client, matchF, false⟩ ch).2.filter RemoteCall.isMutating).length =
      (newShamanChanges ch.Create ch.UpdateNew ch.Delete).length := by
  rw [ApplyChanges]
  by_cases hcs : newShamanChanges ch.Create ch.UpdateNew ch.Delete = []
  · rw [hcs]
    exact ⟨rfl, rfl⟩
  · rcases hgd2 : client.getDomains with ⟨ds, gderr⟩
    rw [hgd2] at hgd
    simp only at hgd
    subst hgd
    rcases planLoop_ok client (ds.filter matchF) hr
        (newShamanChanges ch.Create ch.UpdateNew ch.Delete) with ⟨pds, tr, hp, hlen⟩
    rw [submitChanges_shape_normal client matchF _ ds pds tr hcs hgd2 hp]
    refine ⟨rfl, ?_⟩
    have htr : tr.filter RemoteCall.isMutating = [] :=
      List.filter_eq_nil.mpr (by
        intro x hx
        simp [planLoop_not_mutating client (ds.filter matchF) _ x (by rw [hp]; exact hx)])
    have happ : (applyPhase pds).filter RemoteCall.isMutating = applyPhase pds :=
      List.filter_eq_self.mpr (applyPhase_mutating pds)
    simp [List.filter_append, htr, happ, RemoteCall.isMutating, applyPhase_length, hlen]

/-- Client used by the closed witnesses: one remote domain with no records,
every fetch succeeding. -/
def wClient : ShamanClient :=
  { getDomains := (["a.example.com"], none)
  , getRecords := fun d => ({ Domain := d, Records := [] }, none)
  , replaceDomainRecords := fun _ _ => ({ Domain := "", Records := [] }, none)
  , deleteDomain := fun _ => ({}, none) }

/-- Change set used by the closed witnesses: one create endpoint. -/
def wChanges : PlanChanges := { Create := [epA] }

/-- Closed witness for the hypotheses of `applyChanges_apply_phase_ok_C2`. -/
theorem applyChanges_apply_phase_ok_C2_witness :
    (ApplyChanges ⟨wClient, fun _ => true, false⟩ wChanges).1 = none ∧
    ((ApplyChanges ⟨wClient, fun _ => true, false⟩ wChanges).2.filter
        RemoteCall.isMutating).length = 1 := by
  have h := applyChanges_apply_phase_ok_C2 wClient (fun _ => true) wChanges rfl (fun d => rfl)
  exact ⟨h.1, h.2.trans (by decide)⟩

/-- C8. With dry-run enabled, `ApplyChanges` performs the same per-domain
planning as in normal mode (its remote-call trace is exactly the normal-mode
trace with the mutating calls removed), issues no replace-records and no
delete-domain call, and returns nil whenever planning completes without a
remote fetch error. -/
theorem applyChanges_dry_run_C8 (client : ShamanClient) (matchF : String → Bool)
    (ch : PlanChanges) :
    (∀ call ∈ (ApplyChanges ⟨client, matchF, true⟩ ch).2, call.isMutating = false) ∧
    (ApplyChanges ⟨client, matchF, true⟩ ch).2 =
      (ApplyChanges ⟨client, matchF, false⟩ ch).2.filter (fun call => !call.isMutating) ∧
    ((client.getDomains).2 = none → (∀ d, (client.getRecords d).2 = none) →
      (ApplyChanges ⟨client, matchF, true⟩ ch).1 = none) := by
  rw [ApplyChanges, ApplyChanges]
  by_cases hcs : newShamanChanges ch.Create ch.UpdateNew ch.Delete = []
  · rw [hcs]
    refine ⟨?_, rfl, fun _ _ => rfl⟩
    intro call h
    simp [submitChanges] at h
  · rcases hgd2 : client.getDomains with ⟨ds, gderr⟩
    cases gderr with
    | some e =>
      rw [submitChanges_gd_err client matchF true _ ds e hcs hgd2,
        submitChanges_gd_err client matchF false _ ds e hcs hgd2]
      refine ⟨?_, by simp [RemoteCall.isMutating], ?_⟩
      · intro call h
        simp at h
        subst h
        rfl
      · intro hgd
        simp at hgd
    | none =>
      rcases hp : planLoop client (ds.filter matchF)
          (newShamanChanges ch.Create ch.UpdateNew ch.Delete) with ⟨⟨pds, perr⟩, tr⟩
      have htr : ∀ x ∈ tr, RemoteCall.isMutating x = false := by
        intro x hx
        exact planLoop_not_mutating client (ds.filter matchF) _ x (by rw [hp]; exact hx)
      cases perr with
      | some e =>
        rw [submitChanges_plan_err client matchF true _ ds pds tr e hcs hgd2 hp,
          submitChanges_plan_err client matchF false _ ds pds tr e hcs hgd2 hp]
        refine ⟨?_, ?_, ?_⟩
        · intro call h
          simp at h
          rcases h with h | h
          · subst h; rfl
          · exact htr call h
        · rw [List.filter_eq_self.mpr]
          intro x hx
          simp at hx
          rcases hx with hx | hx
          · subst hx; rfl
          · simp [htr x hx]
        · intro hgd hr
          rcases planLoop_ok client (ds.filter matchF) hr
              (newShamanChanges ch.Create ch.UpdateNew ch.Delete) with ⟨pds2, tr2, hp2, _⟩
          rw [hp] at hp2
          simp at hp2
      | none =>
        rw [submitChanges_shape_dry client matchF _ ds pds tr hcs hgd2 hp,
          submitChanges_shape_normal client matchF _ ds pds tr hcs hgd2 hp]
        refine ⟨?_, ?_, fun _ _ => rfl⟩
        · intro call h
          simp at h
          rcases h with h | h
          · subst h; rfl
          · exact htr call h
        · have h1 : ([RemoteCall.getDomains] ++ tr).filter (fun call => !call.isMutating) =
              [RemoteCall.getDomains] ++ tr := by
            rw [List.filter_eq_self.mpr]
            intro x hx
            simp at hx
            rcases hx with hx | hx
            · subst hx; rfl
            · simp [htr x hx]
          have h2 : (applyPhase pds).filter (fun call => !call.isMutating) = [] := by
            rw [List.filter_eq_nil]
            intro x hx
            simp [applyPhase_mutating pds x hx]
          rw [List.filter_append, h1, h2, List.append_nil]

/-- Closed witness for the hypotheses of `applyChanges_dry_run_C8`. -/
theorem applyChanges_dry_run_C8_witness :
    (ApplyChanges ⟨wClient, fun _ => true, true⟩ wChanges).1 = none ∧
    (ApplyChanges ⟨wClient, fun _ => true, true⟩ wChanges).2 =
      (ApplyChanges ⟨wClient, fun _ => true, false⟩ wChanges).2.filter
        (fun call => !call.isMutating) := by
  have h := applyChanges_dry_run_C8 wClient (fun _ => true) wChanges
  exact ⟨h.2.2 rfl (fun d => rfl), h.2.1⟩

/-! ## Characterization of insertion-ordered bucket grouping -/

/-- Gathered form of the bucket grouping: the bucket of the first element,
followed by the groups of the remaining keys. Equal to the fold of
`bucketInsert`, and easier to reason about. -/
def gather {α : Type} (key : α → String) : List α → List (String × List α)
  | [] => []
  | x :: xs =>
    (key x, x :: xs.filter (fun y => key y = key x)) ::
      gather key (xs.filter (fun y => ¬ key y = key x))
termination_by l => l.length
decreasing_by
  simp only [List.length_cons]
  exact Nat.lt_succ_of_le (List.length_filter_le _ _)

/-- Keys of a list in order of first occurrence. -/
def firstKeys : List String → List String
  | [] => []
  | k :: ks => k :: firstKeys (ks.filter (fun x => ¬ x = k))
termination_by l => l.length
decreasing_by
  simp only [List.length_cons]
  exact Nat.lt_succ_of_le (List.length_filter_le _ _)

theorem string_append_cancel {d a b : String} (h : d ++ a = d ++ b) : a = b := by
  apply String.ext
  have h2 := congrArg String.data h
  simp only [String.data_append] at h2
  exact List.append_cancel_left h2

theorem bucketInsert_keys {α : Type} (key : α → String) (acc : List (String × List α)) (x : α) :
    (bucketInsert key acc x).map Prod.fst =
      if key x ∈ acc.map Prod.fst then acc.map Prod.fst
      else acc.map Prod.fst ++ [key x] := by
  induction acc with
  | nil => simp [bucketInsert]
  | cons kv rest ih =>
    rcases kv with ⟨k, v⟩
    by_cases hk : k = key x
    · simp [bucketInsert, hk]
    · have hk2 : ¬ key x = k := fun h => hk h.symm
      by_cases hmem : key x ∈ rest.map Prod.fst
      · simp [bucketInsert, hk, ih, hmem, hk2]
      · simp [bucketInsert, hk, ih, hmem, hk2]

theorem bucketInsert_not_mem {α : Type} (key : α → String) (acc : List (String × List α))
    (x : α) (h : key x ∉ acc.map Prod.fst) :
    bucketInsert key acc x = acc ++ [(key x, [x])] := by
  induction acc with
  | nil => simp [bucketInsert]
  | cons kv rest ih =>
    rcases kv with ⟨k, v⟩
    simp only [List.map_cons, List.mem_cons, not_or] at h
    have hk : ¬ k = key x := fun hkk => h.1 hkk.symm
    simp only [bucketInsert, if_neg hk, List.cons_append, List.cons.injEq, true_and]
    exact ih h.2

/-- Every existing bucket extended by the matching elements of a list. -/
def bucketAppendAll {α : Type} (key : α → String) (xs : List α)
    (acc : List (String × List α)) : List (String × List α) :=
  acc.map (fun kv => (kv.1, kv.2 ++ xs.filter (fun a => key a = kv.1)))

theorem bucketAppendAll_nil {α : Type} (key : α → String) (acc : List (String × List α)) :
    bucketAppendAll key [] acc = acc := by
  simp [bucketAppendAll]

theorem bucketAppendAll_insert_mem {α : Type} (key : α → String) (xs : List α) (x : α) :
    ∀ acc : List (String × List α), (acc.map Prod.fst).Nodup → key x ∈ acc.map Prod.fst →
      bucketAppendAll key xs (bucketInsert key acc x) = bucketAppendAll key (x :: xs) acc := by
  intro acc
  induction acc with
  | nil => intro _ h; simp at h
  | cons kv rest ih =>
    intro hnd h
    rcases kv with ⟨k, v⟩
    simp only [List.map_cons, List.nodup_cons] at hnd
    by_cases hk : k = key x
    · simp only [bucketInsert, bucketAppendAll]
      rw [if_pos hk]
      simp only [List.map_cons]
      rw [List.filter_cons_of_pos (by simp [hk])]
      congr 1
      · simp [List.append_assoc]
      · apply List.map_congr_left
        intro kv2 hmem2
        have hne : ¬ key x = kv2.1 := by
          intro heq
          apply hnd.1
          rw [hk, heq]
          exact List.mem_map_of_mem Prod.fst hmem2
        rw [List.filter_cons_of_neg (by simp [hne])]
    · have hne : ¬ key x = k := fun hkk => hk hkk.symm
      simp only [List.map_cons, List.mem_cons] at h
      have h2 : key x ∈ rest.map Prod.fst := by
        rcases h with hcase | hcase
        · exact absurd hcase.symm hk
        · exact hcase
      simp only [bucketInsert, bucketAppendAll]
      rw [if_neg hk]
      simp only [List.map_cons]
      congr 1
      · rw [List.filter_cons_of_neg (by simp [hne])]
      · exact ih hnd.2 h2

theorem foldl_bucketInsert {α : Type} (key : α → String) :
    ∀ (xs : List α) (acc : List (String × List α)), (acc.map Prod.fst).Nodup →
      xs.foldl (bucketInsert key) acc =
        bucketAppendAll key xs acc ++
          gather key (xs.filter (fun a => decide (key a ∉ acc.map Prod.fst))) := by
  intro xs
  induction xs with
  | nil =>
    intro acc hnd
    simp [bucketAppendAll, gather]
  | cons x xs ih =>
    intro acc hnd
    rw [List.foldl_cons]
    by_cases hmem : key x ∈ acc.map Prod.fst
    · have hkeys : (bucketInsert key acc x).map Prod.fst = acc.map Prod.fst := by
        rw [bucketInsert_keys, if_pos hmem]
      have hnd2 : ((bucketInsert key acc x).map Prod.fst).Nodup := by
        rw [hkeys]; exact hnd
      rw [ih (bucketInsert key acc x) hnd2, bucketAppendAll_insert_mem key xs x acc hnd hmem,
        hkeys, List.filter_cons_of_neg (by simp [hmem])]
    · have hbi := bucketInsert_not_mem key acc x hmem
      have hnd2 : ((bucketInsert key acc x).map Prod.fst).Nodup := by
        rw [bucketInsert_keys, if_neg hmem]
        rw [List.nodup_append]
        refine ⟨hnd, List.nodup_singleton _, ?_⟩
        intro a ha hb
        simp at hb
        subst hb
        exact hmem ha
      rw [ih (bucketInsert key acc x) hnd2, hbi]
      have hks2 : ((acc ++ [(key x, [x])]).map Prod.fst) = acc.map Prod.fst ++ [key x] := by simp
      rw [hks2]
      have e1 : bucketAppendAll key xs (acc ++ [(key x, [x])]) =
          bucketAppendAll key xs acc ++
            [(key x, [x] ++ xs.filter (fun a => key a = key x))] := by
        simp [bucketAppendAll]
      rw [e1]
      have e2 : bucketAppendAll key (x :: xs) acc = bucketAppendAll key xs acc := by
        apply List.map_congr_left
        intro kv hkv
        have hne : ¬ key x = kv.1 := by
          intro heq
          apply hmem
          rw [heq]
          exact List.mem_map_of_mem Prod.fst hkv
        rw [List.filter_cons_of_neg (by simp [hne])]
      rw [e2, List.filter_cons_of_pos (by simp [hmem])]
      rw [gather]
      have e3 : (xs.filter (fun a => decide (key a ∉ acc.map Prod.fst))).filter
            (fun y => decide (key y = key x)) = xs.filter (fun a => decide (key a = key x)) := by
        rw [List.filter_filter]
        apply List.filter_congr
        intro a _
        by_cases hax : key a = key x
        · simp [hax, hmem]
        · simp [hax]
      have e4 : (xs.filter (fun a => decide (key a ∉ acc.map Prod.fst))).filter
            (fun y => decide (¬ key y = key x)) =
          xs.filter (fun a => decide (key a ∉ acc.map Prod.fst ++ [key x])) := by
        rw [List.filter_filter]
        apply List.filter_congr
        intro a _
        by_cases h1 : key a ∈ acc.map Prod.fst <;> by_cases h2 : key a = key x <;>
          simp [h1, h2, List.mem_append]
      rw [e3, e4]
      simp [List.append_assoc]

theorem map_filter_key {α : Type} (key : α → String) (p : String → Bool) :
    ∀ xs : List α, (xs.filter (fun a => p (key a))).map key = (xs.map key).filter p := by
  intro xs
  induction xs with
  | nil => simp
  | cons x xs ih => by_cases h : p (key x) <;> simp [h, ih]

theorem gather_key_mem {α : Type} (key : α → String) :
    ∀ (xs : List α) (k : String) (v : List α), (k, v) ∈ gather key xs → k ∈ xs.map key := by
  intro xs
  induction xs using gather.induct key with
  | case1 => intro k v h; simp [gather] at h
  | case2 x xs ih =>
    intro k v h
    rw [gather] at h
    rcases List.mem_cons.mp h with h | h
    · simp [Prod.ext_iff] at h
      simp [h.1]
    · have h2 := ih k v h
      simp only [List.mem_map] at h2 ⊢
      rcases h2 with ⟨a, ha, rfl⟩
      exact ⟨a, List.mem_cons_of_mem x (List.mem_of_mem_filter ha), rfl⟩

theorem gather_bucket {α : Type} (key : α → String) :
    ∀ (xs : List α) (k : String) (v : List α), (k, v) ∈ gather key xs →
      v = xs.filter (fun a => key a = k) ∧ v ≠ [] := by
  intro xs
  induction xs using gather.induct key with
  | case1 => intro k v h; simp [gather] at h
  | case2 x xs ih =>
    intro k v h
    rw [gather] at h
    rcases List.mem_cons.mp h with h | h
    · simp only [Prod.mk.injEq] at h
      rcases h with ⟨hk, hv⟩
      subst hk
      constructor
      · rw [hv, List.filter_cons_of_pos (by simp)]
      · rw [hv]; simp
    · have hmemk := gather_key_mem key _ k v h
      have hk : ¬ k = key x := by
        simp only [List.mem_map] at hmemk
        rcases hmemk with ⟨a, ha, rfl⟩
        have h2 := List.of_mem_filter ha
        simp at h2
        exact fun hca => h2 hca
      have hk2 : ¬ key x = k := fun hkk => hk hkk.symm
      rcases ih k v h with ⟨hv, hne⟩
      refine ⟨?_, hne⟩
      rw [hv, List.filter_filter, List.filter_cons_of_neg (by simp [hk2])]
      apply List.filter_congr
      intro a _
      by_cases ha : key a = k
      · simp [ha, hk]
      · simp [ha]

theorem gather_keys {α : Type} (key : α → String) :
    ∀ xs : List α, (gather key xs).map Prod.fst = firstKeys (xs.map key) := by
  intro xs
  induction xs using gather.induct key with
  | case1 => simp [gather, firstKeys]
  | case2 x xs ih =>
    rw [gather]
    simp only [List.map_cons]
    rw [firstKeys]
    congr 1
    rw [ih]
    have hmf : (xs.filter (fun y => decide (¬ key y = key x))).map key =
        (xs.map key).filter (fun y => decide (¬ y = key x)) :=
      map_filter_key key (fun s => decide (¬ s = key x)) xs
    rw [hmf]

theorem firstKeys_mem : ∀ (l : List String) (x : String), x ∈ firstKeys l ↔ x ∈ l := by
  intro l
  induction l using firstKeys.induct with
  | case1 => intro x; simp [firstKeys]
  | case2 k ks ih =>
    intro x
    rw [firstKeys]
    simp only [List.mem_cons]
    constructor
    · rintro (rfl | h)
      · left; rfl
      · right
        exact List.mem_of_mem_filter ((ih x).mp h)
    · rintro (rfl | h)
      · left; rfl
      · by_cases hx : x = k
        · left; exact hx
        · right
          exact (ih x).mpr (List.mem_filter.mpr ⟨h, by simp [hx]⟩)

theorem firstKeys_nodup : ∀ l : List String, (firstKeys l).Nodup := by
  intro l
  induction l using firstKeys.induct with
  | case1 => simp [firstKeys]
  | case2 k ks ih =>
    rw [firstKeys]
    refine List.nodup_cons.mpr ⟨?_, ih⟩
    intro hmem
    have h1 := (firstKeys_mem _ k).mp hmem
    have h2 := List.of_mem_filter h1
    simp at h2

/-! ## Characterization of shamanGroupByNameAndType -/

/-- Supported records of a fetched domain (used in statements). -/
def supportedRecords (dr : DomainResponse) : List DNSRecordResponse :=
  dr.Records.filter (fun r => SupportedRecordType r.rtype)

theorem foldl_guard {α β : Type} (p : α → Bool) (f : β → α → β) :
    ∀ (xs : List α) (b : β),
      xs.foldl (fun acc x => if !p x then acc else f acc x) b = (xs.filter p).foldl f b := by
  intro xs
  induction xs with
  | nil => intro b; rfl
  | cons x xs ih =>
    intro b
    rw [List.foldl_cons]
    cases h : p x with
    | true =>
      rw [List.filter_cons_of_pos h, List.foldl_cons]
      exact ih (f b x)
    | false =>
      rw [List.filter_cons_of_neg (by simp [h])]
      exact ih b

theorem shamanGroups_eq (dr : DomainResponse) :
    shamanGroups dr = (supportedRecords dr).foldl
      (bucketInsert (fun rec => dr.Domain ++ rec.rtype)) [] := by
  exact foldl_guard (fun r : DNSRecordResponse => SupportedRecordType r.rtype)
    (bucketInsert (fun rec : DNSRecordResponse => dr.Domain ++ rec.rtype)) dr.Records []

theorem shamanGroups_gather (dr : DomainResponse) :
    shamanGroups dr =
      gather (fun rec => dr.Domain ++ rec.rtype) (supportedRecords dr) := by
  rw [shamanGroups_eq, foldl_bucketInsert _ _ [] (by simp)]
  simp [bucketAppendAll]

theorem shamanGroupByNameAndType_eq (dr : DomainResponse) :
    shamanGroupByNameAndType dr =
      (gather (fun rec => dr.Domain ++ rec.rtype) (supportedRecords dr)).map
        (fun g => groupToEndpoint dr.Domain g.2) := by
  rw [shamanGroupByNameAndType, shamanGroups_gather]

theorem shaman_bucket_endpoint (dr : DomainResponse) (k : String) (v : List DNSRecordResponse)
    (h : (k, v) ∈ gather (fun rec => dr.Domain ++ rec.rtype) (supportedRecords dr)) :
    ∃ r0 rest, v = r0 :: rest ∧ dr.Domain ++ r0.rtype = k ∧
      v = (supportedRecords dr).filter (fun r => r.rtype = r0.rtype) ∧
      groupToEndpoint dr.Domain v =
        { DNSName := dr.Domain, RecordType := r0.rtype,
          Targets := v.map (fun r => r.Address),
          RecordTTL := Int.ofNat (uint8OfNat r0.TTL) } := by
  obtain ⟨hv, hne⟩ := gather_bucket _ _ k v h
  obtain ⟨r0, rest, hcons⟩ := List.exists_cons_of_ne_nil hne
  have hr0v : r0 ∈ v := by rw [hcons]; exact List.mem_cons_self r0 rest
  have hk : dr.Domain ++ r0.rtype = k := by
    rw [hv] at hr0v
    have h2 := List.of_mem_filter hr0v
    simpa using h2
  refine ⟨r0, rest, hcons, hk, ?_, ?_⟩
  · rw [hv]
    apply List.filter_congr
    intro a _
    rw [← hk]
    exact decide_eq_decide.mpr ⟨fun h2 => string_append_cancel h2, fun h2 => by rw [h2]⟩
  · rw [hcons]
    rfl

theorem shamanGroup_char (dr : DomainResponse) :
    ((shamanGroupByNameAndType dr).map (fun e => e.RecordType)).Nodup ∧
    (∀ ty : String, ty ∈ (shamanGroupByNameAndType dr).map (fun e => e.RecordType) ↔
      ty ∈ (supportedRecords dr).map (fun r => r.rtype)) ∧
    (∀ e ∈ shamanGroupByNameAndType dr,
      e.DNSName = dr.Domain ∧
      e.Targets = ((supportedRecords dr).filter (fun r => r.rtype = e.RecordType)).map
        (fun r => r.Address) ∧
      ∃ r0, ((supportedRecords dr).filter (fun r => r.rtype = e.RecordType)).head? = some r0 ∧
        e.RecordType = r0.rtype ∧ e.RecordTTL = Int.ofNat (uint8OfNat r0.TTL)) := by
  rw [shamanGroupByNameAndType_eq]
  have hknodup : ((gather (fun rec => dr.Domain ++ rec.rtype) (supportedRecords dr)).map
      Prod.fst).Nodup := by
    rw [gather_keys]
    exact firstKeys_nodup _
  refine ⟨?_, ?_, ?_⟩
  · apply List.Nodup.of_map (fun s => dr.Domain ++ s)
    have h2 : (((gather (fun rec => dr.Domain ++ rec.rtype) (supportedRecords dr)).map
          (fun g => groupToEndpoint dr.Domain g.2)).map (fun e => e.RecordType)).map
          (fun s => dr.Domain ++ s) =
        (gather (fun rec => dr.Domain ++ rec.rtype) (supportedRecords dr)).map Prod.fst := by
      rw [List.map_map, List.map_map]
      apply List.map_congr_left
      intro g hg
      obtain ⟨r0, rest, hcons, hk, hfil, hge⟩ := shaman_bucket_endpoint dr g.1 g.2 hg
      show dr.Domain ++ (groupToEndpoint dr.Domain g.2).RecordType = g.1
      rw [hge]
      exact hk
    rw [h2]
    exact hknodup
  · intro ty
    constructor
    · intro h
      rcases List.mem_map.mp h with ⟨e, he, rfl⟩
      rcases List.mem_map.mp he with ⟨g, hg, rfl⟩
      obtain ⟨r0, rest, hcons, hk, hfil, hge⟩ := shaman_bucket_endpoint dr g.1 g.2 hg
      have hr0 : r0 ∈ supportedRecords dr := by
        have hr0v : r0 ∈ g.2 := by rw [hcons]; exact List.mem_cons_self r0 rest
        rw [hfil] at hr0v
        exact List.mem_of_mem_filter hr0v
      rw [hge]
      exact List.mem_map_of_mem (fun r => r.rtype) hr0
    · intro h
      rcases List.mem_map.mp h with ⟨r, hr, rfl⟩
      have hkmem : dr.Domain ++ r.rtype ∈
          (gather (fun rec => dr.Domain ++ rec.rtype) (supportedRecords dr)).map Prod.fst := by
        rw [gather_keys, firstKeys_mem]
        exact List.mem_map_of_mem (fun rec => dr.Domain ++ rec.rtype) hr
      rcases List.mem_map.mp hkmem with ⟨g, hg, hgk⟩
      obtain ⟨r0, rest, hcons, hk, hfil, hge⟩ := shaman_bucket_endpoint dr g.1 g.2 hg
      refine List.mem_map.mpr ⟨groupToEndpoint dr.Domain g.2, List.mem_map_of_mem _ hg, ?_⟩
      show (groupToEndpoint dr.Domain g.2).RecordType = r.rtype
      rw [hge]
      exact string_append_cancel (hk.trans hgk)
  · intro e he
    rcases List.mem_map.mp he with ⟨g, hg, rfl⟩
    obtain ⟨r0, rest, hcons, hk, hfil, hge⟩ := shaman_bucket_endpoint dr g.1 g.2 hg
    rw [hge]
    refine ⟨rfl, ?_, r0, ?_, rfl, rfl⟩
    · show g.2.map (fun r => r.Address) =
        ((supportedRecords dr).filter (fun r => r.rtype = r0.rtype)).map (fun r => r.Address)
      rw [← hfil]
    · show ((supportedRecords dr).filter (fun r => r.rtype = r0.rtype)).head? = some r0
      rw [← hfil, hcons]
      rfl

/-! ## Claim C10: unsupported record types are skipped -/

theorem mem_supportedRecords {dr : DomainResponse} {r : DNSRecordResponse}
    (h : r ∈ supportedRecords dr) :
    r ∈ dr.Records ∧ SupportedRecordType r.rtype = true := by
  have h2 : r ∈ dr.Records.filter (fun rec => SupportedRecordType rec.rtype) := h
  exact ⟨List.mem_of_mem_filter h2, by simpa using List.of_mem_filter h2⟩

theorem supportedRecords_idem (dr : DomainResponse) :
    supportedRecords { Domain := dr.Domain, Records := supportedRecords dr } =
      supportedRecords dr := by
  show (supportedRecords dr).filter (fun r => SupportedRecordType r.rtype) = supportedRecords dr
  rw [List.filter_eq_self]
  intro r hr
  exact (mem_supportedRecords hr).2

theorem head?_mem {α : Type} {l : List α} {a : α} (h : l.head? = some a) : a ∈ l := by
  rcases List.head?_eq_some_iff.mp h with ⟨ys, rfl⟩
  exact List.mem_cons_self a ys

/-- C10. Every remote record of an unsupported type is silently skipped by
the grouping behind `Records`: the endpoints are the same as if only the
supported records had been fetched, every produced endpoint has a supported
record type, and every target comes from a supported record. No error is
produced either way (the grouping is total). -/
theorem unsupported_records_skipped_C10 (dr : DomainResponse) :
    shamanGroupByNameAndType dr =
      shamanGroupByNameAndType { Domain := dr.Domain, Records := supportedRecords dr } ∧
    (∀ e ∈ shamanGroupByNameAndType dr, SupportedRecordType e.RecordType = true) ∧
    (∀ e ∈ shamanGroupByNameAndType dr, ∀ t ∈ e.Targets,
      ∃ r ∈ dr.Records, SupportedRecordType r.rtype = true ∧ r.Address = t) := by
  refine ⟨?_, ?_, ?_⟩
  · rw [shamanGroupByNameAndType_eq, shamanGroupByNameAndType_eq, supportedRecords_idem]
  · intro e he
    obtain ⟨-, -, hmem3⟩ := shamanGroup_char dr
    obtain ⟨-, -, r0, hhead, hty, -⟩ := hmem3 e he
    have hr0 : r0 ∈ supportedRecords dr := List.mem_of_mem_filter (head?_mem hhead)
    rw [hty]
    exact (mem_supportedRecords hr0).2
  · intro e he t ht
    obtain ⟨-, -, hmem3⟩ := shamanGroup_char dr
    obtain ⟨-, htg, -⟩ := hmem3 e he
    rw [htg] at ht
    rcases List.mem_map.mp ht with ⟨r, hr, rfl⟩
    have hr2 : r ∈ supportedRecords dr := List.mem_of_mem_filter hr
    exact ⟨r, (mem_supportedRecords hr2).1, (mem_supportedRecords hr2).2, rfl⟩

/-- Fetched domain with one unsupported (MX) and one supported (A) record,
used by closed witnesses. -/
def drMX : DomainResponse :=
  { Domain := "d.example.com",
    Records := [{ TTL := 60, Class := "IN", rtype := "MX", Address := "mail.example.com" },
                { TTL := 60, Class := "IN", rtype := "A", Address := "1.2.3.4" }] }

/-- Closed witness for the hypotheses of `unsupported_records_skipped_C10`. -/
theorem unsupported_records_skipped_C10_witness :
    shamanGroupByNameAndType drMX =
      shamanGroupByNameAndType { Domain := drMX.Domain, Records := supportedRecords drMX } ∧
    SupportedRecordType
      (({ DNSName := "d.example.com", RecordType := "A", Targets := ["1.2.3.4"],
          RecordTTL := 60 } : Endpoint)).RecordType = true := by
  refine ⟨(unsupported_records_skipped_C10 drMX).1, ?_⟩
  exact (unsupported_records_skipped_C10 drMX).2.1 _ (by decide)

/-! ## Claim C9: TTL values cross the boundary modulo 256 -/

/-- Membership of a record in any action bucket of the groups map. -/
def recInGroups (rec : DNSRecord) (groups : List (String × ActionGroups)) : Prop :=
  ∃ g ∈ groups, rec ∈ g.2.create ∨ rec ∈ g.2.update ∨ rec ∈ g.2.delete

theorem ActionGroups.add_mem (g : ActionGroups) (action : String) (recs : List DNSRecord)
    (rec : DNSRecord)
    (h : rec ∈ (g.add action recs).create ∨ rec ∈ (g.add action recs).update ∨
      rec ∈ (g.add action recs).delete) :
    (rec ∈ g.create ∨ rec ∈ g.update ∨ rec ∈ g.delete) ∨ rec ∈ recs := by
  unfold ActionGroups.add at h
  split_ifs at h <;> (try simp only [List.mem_append] at h) <;> tauto

theorem groupsUpsert_mem :
    ∀ (groups : List (String × ActionGroups)) (d action : String) (recs : List DNSRecord)
      (rec : DNSRecord), recInGroups rec (groupsUpsert groups d action recs) →
      recInGroups rec groups ∨ rec ∈ recs := by
  intro groups
  induction groups with
  | nil =>
    intro d action recs rec h
    rcases h with ⟨g, hg, hmem⟩
    simp only [groupsUpsert, List.mem_singleton] at hg
    subst hg
    rcases ActionGroups.add_mem _ _ _ _ hmem with hfalse | hr
    · simp at hfalse
    · exact Or.inr hr
  | cons kv rest ih =>
    intro d action recs rec h
    rcases kv with ⟨k, v⟩
    rcases h with ⟨g, hg, hmem⟩
    by_cases hk : k = d
    · simp only [groupsUpsert, if_pos hk] at hg
      rcases List.mem_cons.mp hg with hg | hg
      · subst hg
        rcases ActionGroups.add_mem _ _ _ _ hmem with hv | hr
        · exact Or.inl ⟨(k, v), List.mem_cons_self _ _, hv⟩
        · exact Or.inr hr
      · exact Or.inl ⟨g, List.mem_cons_of_mem _ hg, hmem⟩
    · simp only [groupsUpsert, if_neg hk] at hg
      rcases List.mem_cons.mp hg with hg | hg
      · subst hg
        exact Or.inl ⟨(k, v), List.mem_cons_self _ _, hmem⟩
      · rcases ih d action recs rec ⟨g, hg, hmem⟩ with h2 | h2
        · rcases h2 with ⟨g2, hg2, hmem2⟩
          exact Or.inl ⟨g2, List.mem_cons_of_mem _ hg2, hmem2⟩
        · exact Or.inr h2

theorem insertEndpoints_mem (action : String) :
    ∀ (eps : List Endpoint) (groups : List (String × ActionGroups)) (rec : DNSRecord),
      recInGroups rec (insertEndpoints action groups eps) →
      recInGroups rec groups ∨ ∃ e ∈ eps, rec ∈ endpointRecords e := by
  intro eps
  induction eps with
  | nil => intro groups rec h; exact Or.inl h
  | cons e rest ih =>
    intro groups rec h
    rw [insertEndpoints] at h
    rcases ih _ rec h with h2 | h2
    · rcases groupsUpsert_mem _ _ _ _ _ h2 with h3 | h3
      · exact Or.inl h3
      · exact Or.inr ⟨e, List.mem_cons_self _ _, h3⟩
    · rcases h2 with ⟨e2, he2, hrec⟩
      exact Or.inr ⟨e2, List.mem_cons_of_mem _ he2, hrec⟩

theorem buildGroups_mem (cre upd del : List Endpoint) (rec : DNSRecord)
    (h : recInGroups rec (buildGroups cre upd del)) :
    ∃ e ∈ cre ++ upd ++ del, rec ∈ endpointRecords e := by
  rw [buildGroups] at h
  rcases insertEndpoints_mem _ _ _ _ h with h2 | h2
  · rcases insertEndpoints_mem _ _ _ _ h2 with h3 | h3
    · rcases insertEndpoints_mem _ _ _ _ h3 with h4 | h4
      · rcases h4 with ⟨g, hg, -⟩
        simp at hg
      · rcases h4 with ⟨e, he, hrec⟩
        exact ⟨e, by simp [he], hrec⟩
    · rcases h3 with ⟨e, he, hrec⟩
      exact ⟨e, by simp [he], hrec⟩
  · rcases h2 with ⟨e, he, hrec⟩
    exact ⟨e, by simp [he], hrec⟩

theorem changesFold_sets (Q : shamanChangeSet → Prop) :
    ∀ (groups : List (String × ActionGroups)) (s : List shamanChangeSet × List shamanChange),
      (∀ g ∈ groups,
        Q { Action := shamanCreate,
            ResourceRecordSet := { Domain := g.1, Records := g.2.create } } ∧
        Q { Action := shamanUpdate,
            ResourceRecordSet := { Domain := g.1, Records := g.2.update } } ∧
        Q { Action := shamanDelete,
            ResourceRecordSet := { Domain := g.1, Records := g.2.delete } }) →
      (∀ cs ∈ s.1, Q cs) →
      (∀ c ∈ s.2, ∀ cs ∈ c.Changes, Q cs) →
      (∀ cs ∈ (groups.foldl changesStep s).1, Q cs) ∧
      (∀ c ∈ (groups.foldl changesStep s).2, ∀ cs ∈ c.Changes, Q cs) := by
  intro groups
  induction groups with
  | nil => intro s _ h1 h2; exact ⟨h1, h2⟩
  | cons g rest ih =>
    intro s hq h1 h2
    rw [List.foldl_cons]
    have hq1 : ∀ cs ∈ (changesStep s g).1, Q cs := by
      intro cs hcs
      rcases List.mem_append.mp hcs with hcs | hcs
      · exact h1 cs hcs
      · have hg := hq g (List.mem_cons_self _ _)
        simp only [List.mem_cons, List.mem_singleton] at hcs
        rcases hcs with rfl | rfl | rfl | hfalse
        · exact hg.1
        · exact hg.2.1
        · exact hg.2.2
        · simp at hfalse
    have hq2 : ∀ c ∈ (changesStep s g).2, ∀ cs ∈ c.Changes, Q cs := by
      intro c hc
      rcases List.mem_append.mp hc with hc | hc
      · exact h2 c hc
      · simp only [List.mem_singleton] at hc
        subst hc
        intro cs hcs
        exact hq1 cs hcs
    exact ih (changesStep s g) (fun g2 hg2 => hq g2 (List.mem_cons_of_mem _ hg2)) hq1 hq2

theorem newShamanChanges_records (cre upd del : List Endpoint) :
    ∀ c ∈ newShamanChanges cre upd del, ∀ cs ∈ c.Changes,
      ∀ rec ∈ cs.ResourceRecordSet.Records,
      ∃ e ∈ cre ++ upd ++ del, rec ∈ endpointRecords e := by
  intro c hc cs hcs rec hrec
  have h := (changesFold_sets
      (fun cs => ∀ rec ∈ cs.ResourceRecordSet.Records,
        recInGroups rec (buildGroups cre upd del))
      (buildGroups cre upd del) ([], [])
      (by
        intro g hg
        refine ⟨?_, ?_, ?_⟩
        · intro rec2 hrec2
          exact ⟨g, hg, Or.inl hrec2⟩
        · intro rec2 hrec2
          exact ⟨g, hg, Or.inr (Or.inl hrec2)⟩
        · intro rec2 hrec2
          exact ⟨g, hg, Or.inr (Or.inr hrec2)⟩)
      (by intro cs2 hcs2; simp at hcs2)
      (by intro c2 hc2; simp at hc2)).2
  exact buildGroups_mem cre upd del rec (h c hc cs hcs rec hrec)

/-- C9. TTL values crossing the provider boundary are truncated to 8 bits:
every endpoint built by the grouping behind `Records` carries the TTL of the
first record of its group reduced modulo 256, and every record built by the
change conversion carries the TTL of its source endpoint (or the default 60
when the endpoint TTL is unset) reduced modulo 256. -/
theorem ttl_mod256_C9 :
    (∀ dr : DomainResponse, ∀ e ∈ shamanGroupByNameAndType dr,
      ∃ r ∈ dr.Records, SupportedRecordType r.rtype = true ∧ e.RecordType = r.rtype ∧
        e.RecordTTL = Int.ofNat (r.TTL % 256)) ∧
    (∀ cre upd del : List Endpoint, ∀ c ∈ newShamanChanges cre upd del,
      ∀ cs ∈ c.Changes, ∀ rec ∈ cs.ResourceRecordSet.Records,
      ∃ e ∈ cre ++ upd ++ del,
        rec.TTL = ((if 0 < e.RecordTTL then e.RecordTTL else 60) % 256).toNat) := by
  constructor
  · intro dr e he
    obtain ⟨-, -, h3⟩ := shamanGroup_char dr
    obtain ⟨-, -, r0, hhead, hty, httl⟩ := h3 e he
    have hr0 : r0 ∈ supportedRecords dr := List.mem_of_mem_filter (head?_mem hhead)
    exact ⟨r0, (mem_supportedRecords hr0).1, (mem_supportedRecords hr0).2, hty, httl⟩
  · intro cre upd del c hc cs hcs rec hrec
    obtain ⟨e, he, hrece⟩ := newShamanChanges_records cre upd del c hc cs hcs rec hrec
    refine ⟨e, he, ?_⟩
    rcases List.mem_map.mp hrece with ⟨t, ht, rfl⟩
    show uint8OfInt (changeTTL e) = ((if 0 < e.RecordTTL then e.RecordTTL else 60) % 256).toNat
    by_cases hc2 : 0 < e.RecordTTL
    · simp [uint8OfInt, changeTTL, ttlIsConfigured, defaultShamanRecordTTL, hc2]
    · simp [uint8OfInt, changeTTL, ttlIsConfigured, defaultShamanRecordTTL, hc2]

/-- Fetched domain used by the C9 witness. -/
def drTTL : DomainResponse :=
  { Domain := "t.example.com",
    Records := [{ TTL := 60, Class := "IN", rtype := "A", Address := "1.2.3.4" }] }

/-- Endpoint with an out-of-range TTL (300) used by the C9 witness. -/
def ep300 : Endpoint :=
  { DNSName := "big.example.com", RecordType := "A", Targets := ["9.9.9.9"],
    RecordTTL := 300 }

/-- Endpoint produced by the grouping on `drTTL`, used by the C9 witness. -/
def epT : Endpoint :=
  { DNSName := "t.example.com", RecordType := "A", Targets := ["1.2.3.4"], RecordTTL := 60 }

/-- Record produced by the change conversion on `ep300` (300 mod 256 = 44). -/
def rec44 : DNSRecord := { TTL := 44, Class := "IN", rtype := "A", Address := "9.9.9.9" }

/-- CREATE changeset produced by the change conversion on `ep300`. -/
def csC9 : shamanChangeSet :=
  { Action := shamanCreate,
    ResourceRecordSet := { Domain := "big.example.com", Records := [rec44] } }

/-- Change produced by the change conversion on `ep300`. -/
def cC9 : shamanChange :=
  { Domain := "big.example.com",
    Changes :=
      [csC9,
       { Action := shamanUpdate,
         ResourceRecordSet := { Domain := "big.example.com", Records := [] } },
       { Action := shamanDelete,
         ResourceRecordSet := { Domain := "big.example.com", Records := [] } }] }

/-- Closed witness for the hypotheses of `ttl_mod256_C9`: the TTL 300 of a
create endpoint is carried as 300 mod 256 = 44. -/
theorem ttl_mod256_C9_witness :
    (∃ r ∈ drTTL.Records, SupportedRecordType r.rtype = true ∧
      epT.RecordType = r.rtype ∧ epT.RecordTTL = Int.ofNat (r.TTL % 256)) ∧
    (∃ e ∈ [ep300] ++ [] ++ [],
      rec44.TTL = ((if 0 < e.RecordTTL then e.RecordTTL else 60) % 256).toNat) := by
  constructor
  · exact ttl_mod256_C9.1 drTTL epT (by decide)
  · exact ttl_mod256_C9.2 [ep300] [] [] cC9 (by decide) csC9 (by decide) rec44 (by decide)

/-! ## Claim C3: Records across all filtered domains -/

theorem recordsLoop_ok (client : ShamanClient)
    (hrec : ∀ d, (client.getRecords d).2 = none) :
    ∀ doms : List String, recordsLoop client doms =
      ((doms.flatMap (fun d => shamanGroupByNameAndType (client.getRecords d).1), none),
       doms.map RemoteCall.getRecords) := by
  intro doms
  induction doms with
  | nil => rfl
  | cons d rest ih =>
    rcases hg : client.getRecords d with ⟨resp, err⟩
    have h2 := hrec d
    rw [hg] at h2
    simp only at h2
    subst h2
    rw [recordsLoop, hg, ih]
    simp [hg]

theorem Records_ok (client : ShamanClient) (matchF : String → Bool) (dry : Bool)
    (ds : List String)
    (hgd : client.getDomains = (ds, none))
    (hrec : ∀ d, (client.getRecords d).2 = none) :
    Records ⟨client, matchF, dry⟩ =
      (((ds.filter matchF).flatMap
          (fun d => shamanGroupByNameAndType (client.getRecords d).1), none),
       RemoteCall.getDomains :: (ds.filter matchF).map RemoteCall.getRecords) := by
  rw [Records, Domains_ok client matchF dry ds hgd]
  dsimp only
  rw [recordsLoop_ok client hrec]
  rfl

theorem Records_err_empty (p : ShamanProvider)
    (h : (Records p).1.2 ≠ none) : (Records p).1.1 = [] := by
  rw [Records] at h ⊢
  rcases hD : Domains p with ⟨⟨doms, derr⟩, tr⟩
  rw [hD] at h
  cases derr with
  | some e => rfl
  | none =>
    dsimp only at h ⊢
    rcases hL : recordsLoop p.Client doms with ⟨⟨eps, lerr⟩, tr2⟩
    cases lerr with
    | some e => rfl
    | none =>
      rw [hL] at h
      simp at h

theorem flatMap_pairs_nodup (client : ShamanClient)
    (hdom : ∀ d, (client.getRecords d).1.Domain = d) :
    ∀ filtered : List String, filtered.Nodup →
      ((filtered.flatMap (fun d => shamanGroupByNameAndType (client.getRecords d).1)).map
        (fun e => (e.DNSName, e.RecordType))).Nodup := by
  intro filtered
  induction filtered with
  | nil => intro _; simp
  | cons d rest ih =>
    intro hnd
    rw [List.flatMap_cons, List.map_append, List.nodup_append]
    refine ⟨?_, ih (List.nodup_cons.mp hnd).2, ?_⟩
    · apply List.Nodup.of_map Prod.snd
      rw [List.map_map]
      exact (shamanGroup_char (client.getRecords d).1).1
    · intro p hp hp2
      rcases List.mem_map.mp hp with ⟨e, he, rfl⟩
      have hdn : e.DNSName = d := by
        have h2 := ((shamanGroup_char (client.getRecords d).1).2.2 e he).1
        rw [h2, hdom d]
      rcases List.mem_map.mp hp2 with ⟨e2, he2, heq⟩
      rcases List.mem_flatMap.mp he2 with ⟨d2, hd2, he2b⟩
      have hdn2 : e2.DNSName = d2 := by
        have h2 := ((shamanGroup_char (client.getRecords d2).1).2.2 e2 he2b).1
        rw [h2, hdom d2]
      have hfst : e2.DNSName = e.DNSName := congrArg Prod.fst heq
      have hdd : d = d2 := by rw [← hdn, ← hdn2, hfst]
      exact (List.nodup_cons.mp hnd).1 (hdd ▸ hd2)

/-- C3 (amended). Under a sane remote model (every fetch succeeds, each
record response carries the requested domain name, the filtered domain list
has no duplicates), `Records` succeeds and returns exactly one endpoint per
distinct pair of a filtered domain and a supported record type occurring in
its records; the targets of each endpoint are exactly the addresses of its
group, type and TTL (reduced modulo 256) come from the first record of the
group. Whenever `Records` reports an error, the endpoint list is empty (no
partial result). -/
theorem records_spec_C3 (client : ShamanClient) (matchF : String → Bool) (dry : Bool)
    (ds : List String)
    (hgd : client.getDomains = (ds, none))
    (hrec : ∀ d, (client.getRecords d).2 = none)
    (hdom : ∀ d, (client.getRecords d).1.Domain = d)
    (hnd : (ds.filter matchF).Nodup) :
    (Records ⟨client, matchF, dry⟩).1.2 = none ∧
    ((Records ⟨client, matchF, dry⟩).1.1.map (fun e => (e.DNSName, e.RecordType))).Nodup ∧
    (∀ (d ty : String),
      (d, ty) ∈ (Records ⟨client, matchF, dry⟩).1.1.map (fun e => (e.DNSName, e.RecordType)) ↔
      (d ∈ ds.filter matchF ∧
        ty ∈ (supportedRecords (client.getRecords d).1).map (fun r => r.rtype))) ∧
    (∀ e ∈ (Records ⟨client, matchF, dry⟩).1.1,
      e.Targets = ((supportedRecords (client.getRecords e.DNSName).1).filter
        (fun r => r.rtype = e.RecordType)).map (fun r => r.Address) ∧
      ∃ r0, ((supportedRecords (client.getRecords e.DNSName).1).filter
          (fun r => r.rtype = e.RecordType)).head? = some r0 ∧
        e.RecordType = r0.rtype ∧ e.RecordTTL = Int.ofNat (uint8OfNat r0.TTL)) ∧
    (∀ q : ShamanProvider, (Records q).1.2 ≠ none → (Records q).1.1 = []) := by
  have hR := Records_ok client matchF dry ds hgd hrec
  rw [hR]
  dsimp only
  refine ⟨rfl, flatMap_pairs_nodup client hdom _ hnd, ?_, ?_, Records_err_empty⟩
  · intro d ty
    constructor
    · intro h
      rcases List.mem_map.mp h with ⟨e, he, heq⟩
      rcases List.mem_flatMap.mp he with ⟨d2, hd2, heb⟩
      have hchar := shamanGroup_char (client.getRecords d2).1
      have hdn : e.DNSName = d2 := by
        rw [(hchar.2.2 e heb).1, hdom d2]
      have hd : d = d2 := by
        have h2 : e.DNSName = d := congrArg Prod.fst heq
        rw [← h2, hdn]
      have hty : e.RecordType = ty := congrArg Prod.snd heq
      subst hd
      refine ⟨hd2, ?_⟩
      rw [← hty]
      exact (hchar.2.1 e.RecordType).mp (List.mem_map_of_mem (fun e => e.RecordType) heb)
    · rintro ⟨hd, hty⟩
      have hchar := shamanGroup_char (client.getRecords d).1
      rcases List.mem_map.mp ((hchar.2.1 ty).mpr hty) with ⟨e, he, hety⟩
      refine List.mem_map.mpr ⟨e, List.mem_flatMap.mpr ⟨d, hd, he⟩, ?_⟩
      have hdn : e.DNSName = d := by
        rw [(hchar.2.2 e he).1, hdom d]
      rw [hdn, hety]
  · intro e he
    rcases List.mem_flatMap.mp he with ⟨d2, hd2, heb⟩
    have hchar := shamanGroup_char (client.getRecords d2).1
    have hdn : e.DNSName = d2 := by
      rw [(hchar.2.2 e heb).1, hdom d2]
    rw [hdn]
    exact ⟨(hchar.2.2 e heb).2.1, (hchar.2.2 e heb).2.2⟩

/-- Remote with a single domain whose only record has the unsupported type
MX, used to exhibit claim C3 as stated. -/
def cMX : ShamanClient :=
  { getDomains := (["d.example.com"], none)
  , getRecords := fun d =>
      ({ Domain := d,
         Records := [{ TTL := 60, Class := "IN", rtype := "MX",
                       Address := "mail.example.com" }] }, none)
  , replaceDomainRecords := fun _ _ => ({ Domain := "", Records := [] }, none)
  , deleteDomain := fun _ => ({}, none) }

/-- Provider over `cMX` with a filter matching everything. -/
def pMX : ShamanProvider :=
  { Client := cMX, domainFilter := fun _ => true, DryRun := false }

/-- C3 as stated is false: the remote state of `pMX` has exactly one
distinct (domain, record type) pair, namely (d.example.com, MX), but
`Records` succeeds with zero endpoints, because MX is not a supported
record type. -/
theorem records_distinct_pairs_C3_counterexample :
    (Records pMX).1 = ([], none) ∧
    ((cMX.getRecords "d.example.com").1.Records.map
      (fun r => ((cMX.getRecords "d.example.com").1.Domain, r.rtype))).dedup =
      [("d.example.com", "MX")] ∧
    (Records pMX).1.1.length ≠
      (((cMX.getRecords "d.example.com").1.Records.map
        (fun r => ((cMX.getRecords "d.example.com").1.Domain, r.rtype))).dedup).length := by
  decide

/-- Closed witness for the hypotheses of `records_spec_C3`. -/
theorem records_spec_C3_witness :
    (Records ⟨wClient, fun _ => true, false⟩).1.2 = none ∧
    ((Records ⟨wClient, fun _ => true, false⟩).1.1.map
      (fun e => (e.DNSName, e.RecordType))).Nodup := by
  have h := records_spec_C3 wClient (fun _ => true) false ["a.example.com"] rfl
    (fun d => rfl) (fun d => rfl) (by decide)
  exact ⟨h.1, h.2.1⟩
